import Mathlib

set_option maxRecDepth 4000

/-!
Shallow embedding of the `turing_machine` Rust crate (src/tape.rs,
src/transition_fn.rs, src/turing_machine.rs, src/recording.rs).

Modelling conventions:
  * `u64` values (symbols, states) are modelled as `Nat`; the crate performs no
    arithmetic on them, only storage and equality, so no wrapping is needed.
  * `i64` values (tape positions, head location) are modelled as `Int` with an
    explicit two's-complement wrap `wrap64` applied at every arithmetic
    operation the Rust code performs, matching release-mode (wrapping) overflow
    semantics.  `usize` values are modelled as `Nat` with `% 2^64`.
  * Rust operations that can panic (slice indexing) are modelled as
    `Option`-returning functions; `none` models a panic.  Allocation failure /
    `Vec` capacity-overflow aborts are resource limits and are not modelled:
    the backing `Vec<u64>` is an unbounded `List Nat`.
  * `Vec` capacity is not part of `Tape`'s data; for the capacity-hint
    constructor the guaranteed lower bound of the capacity is threaded
    explicitly (`reserve` makes it at least the request, `resize` makes it at
    least the new length, and it never shrinks).
  * The unbounded run loops (`TuringMachine::run`, duration-bounded runs) are
    modelled with an explicit fuel parameter; exhausting fuel is reported by a
    dedicated result constructor distinct from halting and from a panic.
  * The wall-clock test `start.elapsed() >= max_duration` of the
    duration-bounded loops is abstracted as a Boolean sequence indexed by the
    loop iteration at which it is sampled.
-/

/-- Two's-complement wrap of an integer into the `i64` range `[-2^63, 2^63)`. -/
def wrap64 (x : Int) : Int := (x + 2 ^ 63) % 2 ^ 64 - 2 ^ 63

/-- Rust `i64::abs` with release-mode wrapping (`i64::MIN.abs() = i64::MIN`). -/
def i64abs (x : Int) : Int := wrap64 (if x < 0 then -x else x)

/-- Rust `i64::signum`. -/
def i64signum (x : Int) : Int := if 0 < x then 1 else if x < 0 then -1 else 0

/-- Rust `as usize` cast of an `i64` value (two's-complement reinterpretation). -/
def usize_of_i64 (x : Int) : Nat := (x % 2 ^ 64).toNat

/-- Rust `as i64` cast of a `usize` value (two's-complement reinterpretation). -/
def i64_of_usize (n : Nat) : Int := wrap64 n

/-- Embeds `tape.rs::i64_to_idx`:
`((4 * int.abs() + int.signum() - 1) / 2) as usize`, with a wrap after each
`i64` operation and `/` being Rust (truncated) division. -/
def i64_to_idx (int : Int) : Nat :=
  usize_of_i64 (Int.tdiv (wrap64 (wrap64 (wrap64 (4 * i64abs int) + i64signum int) - 1)) 2)

/-- Embeds `tape.rs::idx_to_i64`:
`(1 - 2 * (idx as i64 % 2)) * idx as i64 / 2 - idx as i64 % 2`, with Rust
truncated `%` and `/` on `i64` and a wrap after each operation. -/
def idx_to_i64 (idx : Nat) : Int :=
  wrap64 (Int.tdiv (wrap64 (wrap64 (1 - 2 * Int.tmod (i64_of_usize idx) 2) * i64_of_usize idx)) 2
    - Int.tmod (i64_of_usize idx) 2)

/-- Embeds `tape.rs::no_trailing_or_leading_zeros`.  The source returns `[]`
when no element is nonzero, and otherwise the slice
`vec[first_nonzero ..= last_nonzero]`. -/
def no_trailing_or_leading_zeros (vec : List Nat) : List Nat :=
  if vec.all (· == 0) then []
  else (vec.take ((vec.length - 1 - vec.reverse.findIdx (· != 0)) + 1)).drop
    (vec.findIdx (· != 0))

/-- Embeds `tape.rs::Tape`: a growable backing array of `u64` symbols. -/
structure Tape where
  raw_symbols : List Nat
deriving DecidableEq, Repr

/-- Embeds `Vec::resize(new_len, 0)`: truncate when shrinking, pad with zeros
when growing. -/
def listResize (l : List Nat) (newLen : Nat) : List Nat :=
  if newLen ≤ l.length then l.take newLen else l ++ List.replicate (newLen - l.length) 0

/-- Embeds `Tape::write`.  The backing array is resized to `idx + 1`
(a wrapping `usize` addition) when `idx` is out of bounds; the subsequent
index assignment panics (`none`) if the index is still out of bounds, which
happens exactly when `idx + 1` wrapped to `0`. -/
def Tape.write (t : Tape) (n : Int) (symbol : Nat) : Option Tape :=
  let idx := i64_to_idx n
  if idx ≥ t.raw_symbols.length then
    let r := listResize t.raw_symbols ((idx + 1) % 2 ^ 64)
    if idx < r.length then some ⟨r.set idx symbol⟩ else none
  else
    some ⟨t.raw_symbols.set idx symbol⟩

/-- Embeds `Tape::symbol_at_n`: `0` when the mapped index is out of bounds,
otherwise the stored symbol. -/
def Tape.symbol_at_n (t : Tape) (n : Int) : Nat :=
  let idx := i64_to_idx n
  if idx ≥ t.raw_symbols.length then 0 else t.raw_symbols.getD idx 0

/-- Variant of `Tape.symbol_at_n` that models the indexing operation
`self.raw_symbols[i64_to_idx(n)]` as the fallible operation it is in Rust
(`none` models an index panic); used to state that reads never fail. -/
def Tape.symbol_at_n_checked (t : Tape) (n : Int) : Option Nat :=
  let idx := i64_to_idx n
  if idx ≥ t.raw_symbols.length then some 0 else t.raw_symbols.get? idx

/-- Loop body of `Tape::new` / `Tape::with_capacity`:
`for s in 0..input.len() { tape.write(s as i64, input[s]) }`, modelled by
peeling the input list while carrying the loop counter `s`. -/
def Tape.newLoop : List Nat → Nat → Tape → Option Tape
  | [], _, t => some t
  | x :: xs, s, t =>
    match t.write (i64_of_usize s) x with
    | none => none
    | some t' => Tape.newLoop xs (s + 1) t'

/-- Embeds `Tape::new`. -/
def Tape.new (input : List Nat) : Option Tape :=
  Tape.newLoop input 0 ⟨[]⟩

/-- Loop body of `Tape::with_capacity`, additionally threading the guaranteed
lower bound on the backing vector's capacity (`resize` never shrinks capacity
and makes it at least the new length). -/
def Tape.newLoopCap : List Nat → Nat → Tape → Nat → Option (Tape × Nat)
  | [], _, t, cap => some (t, cap)
  | x :: xs, s, t, cap =>
    match t.write (i64_of_usize s) x with
    | none => none
    | some t' => Tape.newLoopCap xs (s + 1) t' (max cap t'.raw_symbols.length)

/-- Embeds `Tape::with_capacity`.  The guard `capacity < input.len() * 2 - 1`
is computed in wrapping `usize` arithmetic (for an empty input, `0 * 2 - 1`
wraps to `2^64 - 1`); a failing guard panics (`none`).  `reserve(capacity)` on
the fresh empty vector makes the capacity at least `capacity`. -/
def Tape.with_capacity (input : List Nat) (capacity : Nat) : Option (Tape × Nat) :=
  if capacity < (input.length * 2 + (2 ^ 64 - 1)) % 2 ^ 64 then none
  else Tape.newLoopCap input 0 ⟨[]⟩ capacity

/-- Embeds `impl PartialEq for Tape`: the raw backing arrays are compared
after trimming leading and trailing zeros. -/
def Tape.beq (t1 t2 : Tape) : Bool :=
  no_trailing_or_leading_zeros t1.raw_symbols == no_trailing_or_leading_zeros t2.raw_symbols

/-- Insertion of one keyed element, ordering by the `Int` key; used to model
`sort_unstable_by(|a, b| a.0.cmp(&b.0))` (the keys are distinct in every use,
so any sorting algorithm produces the same list). -/
def insertByLoc (p : Int × Nat) : List (Int × Nat) → List (Int × Nat)
  | [] => [p]
  | q :: qs => if p.1 ≤ q.1 then p :: q :: qs else q :: insertByLoc p qs

/-- Insertion sort by the `Int` key; models `sort_unstable_by` on the first
component. -/
def sortByLoc : List (Int × Nat) → List (Int × Nat)
  | [] => []
  | p :: ps => insertByLoc p (sortByLoc ps)

/-- Embeds `Tape::symbols`: pair every stored symbol with its `i64` location,
sort by location, project the symbols and trim leading/trailing zeros. -/
def Tape.symbols (t : Tape) : List Nat :=
  let v1 := t.raw_symbols.enum.map (fun x => (idx_to_i64 x.1, x.2))
  no_trailing_or_leading_zeros ((sortByLoc v1).map (·.2))

/-- Embeds `transition_fn.rs::TransitionFn`: the `HashMap` from
`(state, symbol)` keys to `(new_state, write_symbol, direction)` values is
modelled by its association list (construction rejects duplicate keys, so the
list determines the map). -/
structure TransitionFn where
  map : List ((Nat × Nat) × (Nat × Nat × Bool))
deriving DecidableEq

/-- Embeds the `scan` in `TransitionFn::new` that panics on a repeated key:
walks the table carrying the set of keys already seen. -/
def dupScan : List ((Nat × Nat) × (Nat × Nat × Bool)) → List (Nat × Nat) → Bool
  | [], _ => false
  | x :: xs, seen => if seen.contains x.1 then true else dupScan xs (x.1 :: seen)

/-- Embeds `TransitionFn::new`: panics (`none`) when the state table contains
a duplicate key, otherwise builds the map from the table. -/
def TransitionFn.new (state_table : List ((Nat × Nat) × (Nat × Nat × Bool))) :
    Option TransitionFn :=
  if dupScan state_table [] then none else some ⟨state_table⟩

/-- Embeds `TransitionFn::run`: `HashMap::get` on the `(state, symbol)` key,
modelled as association-list lookup (the keys are unique by construction). -/
def TransitionFn.run (tf : TransitionFn) (state symbol : Nat) : Option (Nat × Nat × Bool) :=
  tf.map.lookup (state, symbol)

/-- Mutable execution context of a run: the machine's current state and head
location (`TuringMachine::state`, `TuringMachine::head_loc`) together with the
tape being written. -/
structure Cfg where
  state : Nat
  head_loc : Int
  tape : Tape
deriving DecidableEq

/-- Embeds `output.2 as i64 * 2 - 1`: the head displacement, `1` for a rightward
move (`true`) and `-1` for a leftward move (`false`). -/
def headMove (dir : Bool) : Int := 2 * (if dir then 1 else 0) - 1

/-- Result of one attempted machine step: no matching transition (`halt`),
a panic inside `Tape::write` (`panicked`), or an applied transition with its
output triple and the updated context. -/
inductive StepRes where
  | halt
  | panicked
  | stepped (out : Nat × Nat × Bool) (c : Cfg)
deriving DecidableEq

/-- Embeds the shared loop body of every run function: look up
`(state, tape.symbol_at_n(head_loc))`; on a match, set the new state, write the
output symbol at the head and move the head — atomically, as one step. -/
def machineStep (tf : TransitionFn) (c : Cfg) : StepRes :=
  match tf.run c.state (c.tape.symbol_at_n c.head_loc) with
  | none => .halt
  | some out =>
    match c.tape.write c.head_loc out.2.1 with
    | none => .panicked
    | some t' => .stepped out ⟨out.1, wrap64 (c.head_loc + headMove out.2.2), t'⟩

/-- Result of a run: normal exit with the final context, a panic, or fuel
exhaustion (the Rust loop would still be running). -/
inductive RunRes where
  | out (c : Cfg)
  | panicked
  | fuelOut
deriving DecidableEq

/-- Embeds `TuringMachine::run`: loop until no transition matches.  The loop is
unbounded in Rust; `fuel` bounds the modelled iterations. -/
def runLoop (tf : TransitionFn) : Nat → Cfg → RunRes
  | 0, _ => .fuelOut
  | fuel + 1, c =>
    match machineStep tf c with
    | .halt => .out c
    | .panicked => .panicked
    | .stepped _ c' => runLoop tf fuel c'

/-- Embeds the `AfterSteps` loop of `TuringMachine::run_with_halt_setting`:
break before attempting a step once `step_num >= max_steps`, otherwise
increment `step_num` and attempt a step. -/
def run_steps_loop (tf : TransitionFn) (maxSteps : Nat) (stepNum : Nat) (c : Cfg) : RunRes :=
  if stepNum ≥ maxSteps then .out c
  else
    match machineStep tf c with
    | .halt => .out c
    | .panicked => .panicked
    | .stepped _ c' => run_steps_loop tf maxSteps (stepNum + 1) c'
termination_by maxSteps - stepNum
decreasing_by omega

/-- Embeds the `AfterDuration` loop of `TuringMachine::run_with_halt_setting`:
before each step attempt, sample the elapsed-time test (abstracted as the
Boolean sequence `elapsed`, indexed by the iteration count) and break when it
reports the bound reached. -/
def run_duration_loop (tf : TransitionFn) (elapsed : Nat → Bool) : Nat → Nat → Cfg → RunRes
  | 0, _, _ => .fuelOut
  | fuel + 1, i, c =>
    if elapsed i then .out c
    else
      match machineStep tf c with
      | .halt => .out c
      | .panicked => .panicked
      | .stepped _ c' => run_duration_loop tf elapsed fuel (i + 1) c'

/-- Embeds `turing_machine.rs::HaltSetting`.  The `Duration` payload of
`AfterDuration` is abstracted as the sequence of outcomes of the per-iteration
elapsed-time test. -/
inductive HaltSetting where
  | noForcedHalt
  | afterSteps (maxSteps : Nat)
  | afterDuration (elapsed : Nat → Bool)

/-- Embeds `TuringMachine::run_with_halt_setting`: dispatch on the halt
setting (`NoForcedHalt` delegates to `TuringMachine::run`). -/
def run_with_halt_setting (tf : TransitionFn) (hs : HaltSetting) (fuel : Nat) (c : Cfg) :
    RunRes :=
  match hs with
  | .noForcedHalt => runLoop tf fuel c
  | .afterSteps maxSteps => run_steps_loop tf maxSteps 0 c
  | .afterDuration elapsed => run_duration_loop tf elapsed fuel 0 c

/-- Embeds `recording.rs::Recording`: snapshot of the tape, state and head
location before the run, plus the ordered log of applied transition outputs. -/
structure Recording where
  input : Tape
  init_state : Nat
  init_head_loc : Int
  steps : List (Nat × Nat × Bool)
deriving DecidableEq

/-- Recording variant of `runLoop` (the loop of `TuringMachine::run_and_record`):
identical loop, additionally returning the ordered list of applied transition
outputs. -/
def runLoopRec (tf : TransitionFn) : Nat → Cfg → RunRes × List (Nat × Nat × Bool)
  | 0, _ => (.fuelOut, [])
  | fuel + 1, c =>
    match machineStep tf c with
    | .halt => (.out c, [])
    | .panicked => (.panicked, [])
    | .stepped out c' =>
      match runLoopRec tf fuel c' with
      | (r, steps) => (r, out :: steps)

/-- Recording variant of `run_steps_loop` (the `AfterSteps` loop of
`TuringMachine::run_with_halt_setting_and_record`). -/
def run_steps_loop_rec (tf : TransitionFn) (maxSteps : Nat) (stepNum : Nat) (c : Cfg) :
    RunRes × List (Nat × Nat × Bool) :=
  if stepNum ≥ maxSteps then (.out c, [])
  else
    match machineStep tf c with
    | .halt => (.out c, [])
    | .panicked => (.panicked, [])
    | .stepped out c' =>
      match run_steps_loop_rec tf maxSteps (stepNum + 1) c' with
      | (r, steps) => (r, out :: steps)
termination_by maxSteps - stepNum
decreasing_by omega

/-- Recording variant of `run_duration_loop` (the `AfterDuration` loop of
`TuringMachine::run_with_halt_setting_and_record`). -/
def run_duration_loop_rec (tf : TransitionFn) (elapsed : Nat → Bool) :
    Nat → Nat → Cfg → RunRes × List (Nat × Nat × Bool)
  | 0, _, _ => (.fuelOut, [])
  | fuel + 1, i, c =>
    if elapsed i then (.out c, [])
    else
      match machineStep tf c with
      | .halt => (.out c, [])
      | .panicked => (.panicked, [])
      | .stepped out c' =>
        match run_duration_loop_rec tf elapsed fuel (i + 1) c' with
        | (r, steps) => (r, out :: steps)

/-- Result of a recording run: normal exit with the final context and the
produced `Recording`, a panic, or fuel exhaustion. -/
inductive RecRunRes where
  | out (c : Cfg) (rec : Recording)
  | panicked
  | fuelOut
deriving DecidableEq

/-- Packages a loop result and step log into a `RecRunRes`, attaching the
snapshot taken before the run began. -/
def packRec (init : Cfg) : RunRes × List (Nat × Nat × Bool) → RecRunRes
  | (.out c', steps) => .out c' ⟨init.tape, init.state, init.head_loc, steps⟩
  | (.panicked, _) => .panicked
  | (.fuelOut, _) => .fuelOut

/-- Embeds `TuringMachine::run_and_record`. -/
def run_and_record (tf : TransitionFn) (fuel : Nat) (c : Cfg) : RecRunRes :=
  packRec c (runLoopRec tf fuel c)

/-- Embeds `TuringMachine::run_with_halt_setting_and_record` (the snapshot is
taken from the initial context; `NoForcedHalt` delegates to
`TuringMachine::run_and_record`, whose own snapshot is the same). -/
def run_with_halt_setting_and_record (tf : TransitionFn) (hs : HaltSetting) (fuel : Nat)
    (c : Cfg) : RecRunRes :=
  match hs with
  | .noForcedHalt => run_and_record tf fuel c
  | .afterSteps maxSteps => packRec c (run_steps_loop_rec tf maxSteps 0 c)
  | .afterDuration elapsed => packRec c (run_duration_loop_rec tf elapsed fuel 0 c)

/-- Projection of a recording-run result onto a plain run result (forgetting
the recording). -/
def RecRunRes.toRunRes : RecRunRes → RunRes
  | .out c _ => .out c
  | .panicked => .panicked
  | .fuelOut => .fuelOut

/-- Replay of one logged entry, following the tape/state/head updates of
`Recording::play_in_console`: set the state to the entry's next state, write
the entry's symbol at the current head, then move the head by the entry's
direction.  The write is the fallible `Tape::write`. -/
def replayStep (c : Cfg) (s : Nat × Nat × Bool) : Option Cfg :=
  match c.tape.write c.head_loc s.2.1 with
  | none => none
  | some t' => some ⟨s.1, wrap64 (c.head_loc + headMove s.2.2), t'⟩

/-- Replay of a list of logged entries in order. -/
def replayList (c : Cfg) : List (Nat × Nat × Bool) → Option Cfg
  | [] => some c
  | s :: rest =>
    match replayStep c s with
    | none => none
    | some c' => replayList c' rest

/-- Replay of a full `Recording` from its snapshot tape, state and head. -/
def Recording.replay (r : Recording) : Option Cfg :=
  replayList ⟨r.init_state, r.init_head_loc, r.input⟩ r.steps

/-- Reference bounded-run semantics: apply at most `n` transitions, stopping
early when no transition matches; used to state what `run_steps_loop`'s
counter-based loop computes. -/
def runBounded (tf : TransitionFn) : Nat → Cfg → RunRes
  | 0, c => .out c
  | n + 1, c =>
    match machineStep tf c with
    | .halt => .out c
    | .panicked => .panicked
    | .stepped _ c' => runBounded tf n c'

/-- Context reached after exactly `k` applied transitions (`none` when the
machine halts or panics earlier). -/
def traceFrom (tf : TransitionFn) : Cfg → Nat → Option Cfg
  | c, 0 => some c
  | c, k + 1 =>
    match machineStep tf c with
    | .stepped _ c' => traceFrom tf c' k
    | _ => none

/-- Countdown form of the step-bounded recording loop (helper for reasoning,
proved equal to `run_steps_loop_rec`). -/
def runBoundedRec (tf : TransitionFn) : Nat → Cfg → RunRes × List (Nat × Nat × Bool)
  | 0, c => (.out c, [])
  | n + 1, c =>
    match machineStep tf c with
    | .halt => (.out c, [])
    | .panicked => (.panicked, [])
    | .stepped out c' =>
      match runBoundedRec tf n c' with
      | (r, steps) => (r, out :: steps)

/-- Sequence of single-position writes applied to a tape, in order; models a
tape's write history (used to state which positions have ever been written). -/
def writeList (t : Tape) : List (Int × Nat) → Option Tape
  | [] => some t
  | w :: ws =>
    match t.write w.1 w.2 with
    | none => none
    | some t' => writeList t' ws

/-- Backing array produced by writing a list at positions `0, 1, 2, …` of an
empty tape: the input interleaved with zeros at the odd indices. -/
def interleave : List Nat → List Nat
  | [] => []
  | [x] => [x]
  | x :: y :: xs => x :: 0 :: interleave (y :: xs)

/-! Validation of the embedding against the crate's own unit tests
(`test_i64_to_idx`, `test_idx_to_i64`, `test_new`, `test_no_trailing_or_leading_zeros`,
`test_symbols`, `test_symbol_at_n`, `test_write`, `test_with_capacity`), plus the
overflow cases discussed in the lemmas below. -/
theorem crate_test_i64_to_idx : i64_to_idx (-2) = 3 ∧ i64_to_idx (-1) = 1 ∧ i64_to_idx 0 = 0 ∧
    i64_to_idx 1 = 2 ∧ i64_to_idx 2 = 4 := by decide
theorem crate_test_idx_to_i64 : idx_to_i64 0 = 0 ∧ idx_to_i64 1 = -1 ∧ idx_to_i64 2 = 1 ∧ idx_to_i64 3 = -2 ∧
    idx_to_i64 4 = 2 ∧ idx_to_i64 5 = -3 ∧ idx_to_i64 6 = 3 ∧ idx_to_i64 7 = -4 := by decide
theorem crate_test_new : Tape.new [2, 3, 5] = some ⟨[2, 0, 3, 0, 5]⟩ := by decide
theorem crate_test_trim : no_trailing_or_leading_zeros [0, 0, 3, 0, 4, 0] = [3, 0, 4] := by decide
theorem crate_test_symbols_write : (Tape.new [3, 34343, 1, 0, 25]).bind (fun t => t.write (-7) 946) =
    some ⟨[3, 0, 34343, 0, 1, 0, 0, 0, 25, 0, 0, 0, 0, 946]⟩ := by decide
theorem crate_test_symbols : Tape.symbols ⟨[3, 0, 34343, 0, 1, 0, 0, 0, 25, 0, 0, 0, 0, 946]⟩ =
    [946, 0, 0, 0, 0, 0, 0, 3, 34343, 1, 0, 25] := by decide
theorem crate_test_write_read : (((Tape.new [0, 22, 3]).bind (fun t => t.write (-2) 73)).bind
    (fun t => t.write 59 12)).map (fun t => (t.symbol_at_n 0, t.symbol_at_n (-2),
      t.symbol_at_n (-1), t.symbol_at_n (-3), t.symbol_at_n 2, t.symbol_at_n 32193824)) =
    some (0, 73, 0, 0, 3, 0) := by decide
theorem crate_test_write_panic_a : Tape.write ⟨[]⟩ (-(2^62)) 1 = none := by decide
theorem crate_test_write_panic_b : Tape.write ⟨[]⟩ (-(2^63)) 1 = none := by decide
theorem crate_test_roundtrip_wrap : idx_to_i64 (i64_to_idx (2^62)) = 0 := by decide
theorem crate_test_with_capacity_empty : Tape.with_capacity [] 10 = none := by decide
theorem crate_test_with_capacity_small : Tape.with_capacity [0, 1] 1 = none := by decide
theorem crate_test_with_capacity_ok : Tape.with_capacity [23, 1, 0, 49] 20 = some (⟨[23, 0, 1, 0, 0, 0, 49]⟩, 20) := by decide

/-! Validation of the machine loops against the crate's tests (`test_new`,
`test_run`, `panic_test_new`, `test_run_with_halt_setting`, `test_run_and_record`). -/
theorem crate_test_transition_dup : (TransitionFn.new [((1, 23), (0, 15, true)), ((1, 23), (1, 72, false))]) = none := by
  decide
theorem crate_test_transition_new : (TransitionFn.new [((0, 0), (1, 2, true)), ((1, 0), (0, 1, false))]) =
    some ⟨[((0, 0), (1, 2, true)), ((1, 0), (0, 1, false))]⟩ := by decide
theorem crate_test_transition_run_hit : TransitionFn.run ⟨[((0, 0), (1, 2, true)), ((1, 0), (0, 1, false))]⟩ 0 0 =
    some (1, 2, true) := by decide
theorem crate_test_transition_run_miss : TransitionFn.run ⟨[((0, 0), (1, 2, true)), ((1, 0), (0, 1, false))]⟩ 123 97412 =
    none := by decide
theorem crate_test_run : runLoop ⟨[((0, 0), (10, 10, false)), ((10, 0), (9, 9, false)),
    ((9, 0), (8, 8, false)), ((8, 0), (7, 7, false)), ((7, 0), (6, 6, false)),
    ((6, 0), (5, 5, false)), ((5, 0), (4, 4, false)), ((4, 0), (3, 3, false)),
    ((3, 0), (2, 2, false)), ((2, 0), (1, 1, false))]⟩ 20 ⟨0, 0, ⟨[]⟩⟩ =
    .out ⟨1, -10, ⟨[10, 9, 0, 8, 0, 7, 0, 6, 0, 5, 0, 4, 0, 3, 0, 2, 0, 1]⟩⟩ := by decide
theorem crate_test_run_symbols : Tape.symbols ⟨[10, 9, 0, 8, 0, 7, 0, 6, 0, 5, 0, 4, 0, 3, 0, 2, 0, 1]⟩ =
    [1, 2, 3, 4, 5, 6, 7, 8, 9, 10] := by decide
theorem crate_test_halt7 : runBounded ⟨[((0, 0), (1, 1, true)), ((1, 0), (2, 2, true)),
    ((2, 0), (0, 3, true))]⟩ 7 ⟨0, 0, ⟨[]⟩⟩ =
    .out ⟨1, 7, ⟨[1, 0, 2, 0, 3, 0, 1, 0, 2, 0, 3, 0, 1]⟩⟩ := by decide
theorem crate_test_halt7_symbols : Tape.symbols ⟨[1, 0, 2, 0, 3, 0, 1, 0, 2, 0, 3, 0, 1]⟩ = [1, 2, 3, 1, 2, 3, 1] := by
  decide
theorem crate_test_halt7_claimed : runBounded ⟨[((0, 0), (1, 1, true)), ((1, 0), (0, 1, false))]⟩ 7 ⟨0, 0, ⟨[]⟩⟩ =
    .out ⟨0, 0, ⟨[1, 0, 1]⟩⟩ := by decide
theorem crate_test_halt7_claimed_symbols : Tape.symbols ⟨[1, 0, 1]⟩ = [1, 1] := by decide
theorem crate_test_run_and_record : runLoopRec ⟨[((0, 0), (1, 1, true)), ((1, 0), (1, 4, false)), ((1, 1), (2, 1, false)),
    ((2, 0), (3, 3, true))]⟩ 10 ⟨0, 0, ⟨[0, 0, 0, 0, 1, 0, 5, 0, 9]⟩⟩ =
    (.out ⟨3, 0, ⟨[1, 3, 4, 0, 1, 0, 5, 0, 9]⟩⟩,
     [(1, 1, true), (1, 4, false), (2, 1, false), (3, 3, true)]) := by decide

/-! General arithmetic helper lemmas. -/

theorem wrap64_eq_self {x : Int} (h1 : -(2 ^ 63) ≤ x) (h2 : x < 2 ^ 63) : wrap64 x = x := by
  unfold wrap64; omega

theorem wrap64_lb (x : Int) : -(2 ^ 63) ≤ wrap64 x := by unfold wrap64; omega

theorem wrap64_ub (x : Int) : wrap64 x < 2 ^ 63 := by unfold wrap64; omega

theorem tdiv_two_nonneg {x : Int} (h : 0 ≤ x) : Int.tdiv x 2 = x / 2 :=
  Int.tdiv_eq_ediv h (by norm_num)

theorem tdiv_two_neg {x : Int} (h : x < 0) : Int.tdiv x 2 = -(-x / 2) := by
  rw [show x = -(-x) by ring, Int.neg_tdiv, Int.tdiv_eq_ediv (by omega) (by norm_num)]
  simp

/-- Positions in `(-2^61, 2^61)`: the range where none of the `i64` operations
inside `i64_to_idx` overflows. -/
def posInRange (p : Int) : Prop := -(2 ^ 61) < p ∧ p < 2 ^ 61

instance (p : Int) : Decidable (posInRange p) := by unfold posInRange; infer_instance

theorem i64_to_idx_of_nonneg {p : Int} (h0 : 0 ≤ p) (h : p < 2 ^ 61) :
    i64_to_idx p = (2 * p).toNat := by
  unfold i64_to_idx i64abs i64signum usize_of_i64
  rcases eq_or_lt_of_le h0 with h1 | h1
  · rw [← h1]; decide
  · rw [if_neg (by omega), if_pos h1,
      wrap64_eq_self (x := p) (by omega) (by omega),
      wrap64_eq_self (x := 4 * p) (by omega) (by omega),
      wrap64_eq_self (x := 4 * p + 1) (by omega) (by omega),
      wrap64_eq_self (x := 4 * p + 1 - 1) (by omega) (by omega),
      tdiv_two_nonneg (by omega)]
    omega

theorem i64_to_idx_of_neg {p : Int} (h0 : p < 0) (h : -(2 ^ 61) < p) :
    i64_to_idx p = (-(2 * p) - 1).toNat := by
  unfold i64_to_idx i64abs i64signum usize_of_i64
  rw [if_pos h0, if_neg (by omega), if_pos h0,
    wrap64_eq_self (x := -p) (by omega) (by omega),
    wrap64_eq_self (x := 4 * -p) (by omega) (by omega),
    wrap64_eq_self (x := 4 * -p + -1) (by omega) (by omega),
    wrap64_eq_self (x := 4 * -p + -1 - 1) (by omega) (by omega),
    tdiv_two_nonneg (by omega)]
  omega

theorem idx_to_i64_even {k : Nat} (h : k < 2 ^ 62) : idx_to_i64 (2 * k) = k := by
  unfold idx_to_i64 i64_of_usize
  rw [wrap64_eq_self (x := (2 * k : Nat)) (by omega) (by push_cast; omega)]
  have hm : Int.tmod (2 * k) 2 = 0 := by
    rw [Int.tmod_eq_emod (by omega) (by omega)]; omega
  push_cast
  rw [hm]
  rw [wrap64_eq_self (x := 1 - 2 * 0) (by omega) (by omega)]
  rw [wrap64_eq_self (x := (1 - 2 * 0) * (2 * k)) (by push_cast; omega) (by push_cast; omega)]
  rw [tdiv_two_nonneg (by omega)]
  rw [wrap64_eq_self (by omega) (by omega)]
  omega

theorem idx_to_i64_odd {k : Nat} (h : k < 2 ^ 62) : idx_to_i64 (2 * k + 1) = -(k + 1) := by
  unfold idx_to_i64 i64_of_usize
  rw [wrap64_eq_self (x := (2 * k + 1 : Nat)) (by omega) (by push_cast; omega)]
  have hm : Int.tmod (2 * k + 1) 2 = 1 := by
    rw [Int.tmod_eq_emod (by omega) (by omega)]; omega
  push_cast
  rw [hm]
  rw [wrap64_eq_self (x := 1 - 2 * 1) (by omega) (by omega)]
  rw [wrap64_eq_self (x := (1 - 2 * 1) * (2 * k + 1)) (by push_cast; omega) (by push_cast; omega)]
  rw [tdiv_two_neg (by omega)]
  rw [wrap64_eq_self (by omega) (by omega)]
  omega

theorem i64_to_idx_inj {p q : Int} (hp : posInRange p) (hq : posInRange q)
    (h : i64_to_idx p = i64_to_idx q) : p = q := by
  obtain ⟨hp1, hp2⟩ := hp
  obtain ⟨hq1, hq2⟩ := hq
  rcases le_or_lt 0 p with hp0 | hp0 <;> rcases le_or_lt 0 q with hq0 | hq0
  · rw [i64_to_idx_of_nonneg hp0 hp2, i64_to_idx_of_nonneg hq0 hq2] at h; omega
  · rw [i64_to_idx_of_nonneg hp0 hp2, i64_to_idx_of_neg hq0 hq1] at h; omega
  · rw [i64_to_idx_of_neg hp0 hp1, i64_to_idx_of_nonneg hq0 hq2] at h; omega
  · rw [i64_to_idx_of_neg hp0 hp1, i64_to_idx_of_neg hq0 hq1] at h; omega

/-- C2 (amended): on the overflow-free range `|p| < 2^61`, `i64_to_idx`
computes the stated closed formula `(4|p| + sign(p) - 1) / 2` (truncated
division) with `idx(0) = 0`, maps non-negative positions to even indices and
negative positions to odd indices, and `idx_to_i64` inverts it. -/
theorem i64_idx_bijection (p : Int) (hp : posInRange p) :
    (i64_to_idx p : Int) = Int.tdiv (4 * |p| + i64signum p - 1) 2 ∧
    i64_to_idx 0 = 0 ∧
    (0 ≤ p → i64_to_idx p % 2 = 0) ∧
    (p < 0 → i64_to_idx p % 2 = 1) ∧
    idx_to_i64 (i64_to_idx p) = p := by
  obtain ⟨h1, h2⟩ := hp
  refine ⟨?_, by decide, ?_, ?_, ?_⟩
  · rcases le_or_lt 0 p with h0 | h0
    · rw [i64_to_idx_of_nonneg h0 h2, abs_of_nonneg h0]
      unfold i64signum
      rcases eq_or_lt_of_le h0 with h3 | h3
      · rw [← h3]; decide
      · rw [if_pos h3, tdiv_two_nonneg (by omega)]; omega
    · rw [i64_to_idx_of_neg h0 h1, abs_of_neg h0]
      unfold i64signum
      rw [if_neg (by omega), if_pos h0, tdiv_two_nonneg (by omega)]
      omega
  · intro h0
    rw [i64_to_idx_of_nonneg h0 h2]; omega
  · intro h0
    rw [i64_to_idx_of_neg h0 h1]; omega
  · rcases le_or_lt 0 p with h0 | h0
    · rw [i64_to_idx_of_nonneg h0 h2,
        show (2 * p).toNat = 2 * p.toNat by omega,
        idx_to_i64_even (by omega)]
      omega
    · rw [i64_to_idx_of_neg h0 h1,
        show (-(2 * p) - 1).toNat = 2 * (-p - 1).toNat + 1 by omega,
        idx_to_i64_odd (by omega)]
      omega

/-- C2 (counterexample): outside the overflow-free range the round trip fails;
at `p = 2^62` the wrapping `i64` arithmetic inside `i64_to_idx` collapses the
index to `0`, so the round trip returns `0`, not `2^62`.  (With overflow
checks enabled the same computation panics instead.) -/
theorem i64_idx_roundtrip_cex :
    idx_to_i64 (i64_to_idx (2 ^ 62)) = 0 ∧ (2 ^ 62 : Int) ≠ 0 := by
  constructor
  · decide
  · decide

/-- Witness for `i64_idx_bijection` at `p = -3`. -/
theorem i64_idx_bijection_witness :
    posInRange (-3) ∧ idx_to_i64 (i64_to_idx (-3)) = -3 :=
  ⟨by decide, (i64_idx_bijection (-3) (by decide)).2.2.2.2⟩

/-! Tape read/write lemmas. -/

theorem getD_set_eq (l : List Nat) (j v i : Nat) :
    (l.set j v).getD i 0 = if i = j ∧ j < l.length then v else l.getD i 0 := by
  simp only [List.getD_eq_getElem?_getD, List.getElem?_set]
  by_cases h : j = i
  · subst h
    by_cases hj : j < l.length
    · simp [hj]
    · rw [if_pos rfl, if_neg hj, if_neg (by omega), List.getElem?_eq_none (by omega)]
  · rw [if_neg h, if_neg (fun hc => h hc.1.symm)]

theorem listResize_length (l : List Nat) (m : Nat) : (listResize l m).length = m := by
  unfold listResize
  split
  · simp
    omega
  · simp
    omega

theorem listResize_getD (l : List Nat) (m : Nat) (h : l.length ≤ m) (i : Nat) :
    (listResize l m).getD i 0 = l.getD i 0 := by
  unfold listResize
  by_cases hm : m ≤ l.length
  · rw [if_pos hm, show m = l.length by omega, List.take_length]
  · rw [if_neg hm]
    simp only [List.getD_eq_getElem?_getD, List.getElem?_append]
    split
    · rfl
    · rw [List.getElem?_replicate, List.getElem?_eq_none (by omega)]
      split <;> rfl

theorem write_some_getD {t : Tape} {n : Int} {s : Nat} {t' : Tape}
    (hw : t.write n s = some t') :
    i64_to_idx n < t'.raw_symbols.length ∧
    ∀ i, t'.raw_symbols.getD i 0 = if i = i64_to_idx n then s else t.raw_symbols.getD i 0 := by
  unfold Tape.write at hw
  simp only at hw
  by_cases hlen : i64_to_idx n ≥ t.raw_symbols.length
  · rw [if_pos hlen] at hw
    by_cases hidx : i64_to_idx n < (listResize t.raw_symbols ((i64_to_idx n + 1) % 2 ^ 64)).length
    · rw [if_pos hidx] at hw
      injection hw with hw
      subst hw
      rw [listResize_length] at hidx
      have hm : (i64_to_idx n + 1) % 2 ^ 64 = i64_to_idx n + 1 := by omega
      constructor
      · simp only [List.length_set, listResize_length]
        omega
      · intro i
        rw [getD_set_eq, listResize_length]
        by_cases hi : i = i64_to_idx n
        · rw [if_pos ⟨hi, hidx⟩, if_pos hi]
        · rw [if_neg (fun hc => hi hc.1), if_neg hi,
            listResize_getD _ _ (by omega)]
    · rw [if_neg hidx] at hw
      exact absurd hw (by simp)
  · rw [if_neg hlen] at hw
    injection hw with hw
    subst hw
    push_neg at hlen
    constructor
    · simpa [List.length_set] using hlen
    · intro i
      rw [getD_set_eq]
      by_cases hi : i = i64_to_idx n
      · rw [if_pos ⟨hi, hlen⟩, if_pos hi]
      · rw [if_neg (fun hc => hi hc.1), if_neg hi]

theorem symbol_at_n_eq_getD (t : Tape) (n : Int) :
    t.symbol_at_n n = t.raw_symbols.getD (i64_to_idx n) 0 := by
  unfold Tape.symbol_at_n
  simp only
  split
  · rw [List.getD_eq_default _ _ (by omega)]
  · rfl

theorem writeList_read_zero :
    ∀ (ws : List (Int × Nat)) (t0 t : Tape) (p : Int),
    writeList t0 ws = some t → (∀ w ∈ ws, posInRange w.1) → posInRange p →
    p ∉ ws.map Prod.fst → t0.symbol_at_n p = 0 → t.symbol_at_n p = 0 := by
  intro ws
  induction ws with
  | nil =>
    intro t0 t p hw _ _ _ h0
    injection hw with hw
    rw [← hw]
    exact h0
  | cons w rest ih =>
    intro t0 t p hw hr hp hmem h0
    unfold writeList at hw
    rcases hw1 : t0.write w.1 w.2 with _ | t1
    · rw [hw1] at hw
      exact absurd hw (by simp)
    · rw [hw1] at hw
      simp only at hw
      refine ih t1 t p hw (fun x hx => hr x (by simp [hx])) hp
        (fun hc => hmem (by simp [hc])) ?_
      rw [symbol_at_n_eq_getD, (write_some_getD hw1).2,
        if_neg (fun hc => ?_), ← symbol_at_n_eq_getD]
      · exact h0
      · exact hmem (by simp [i64_to_idx_inj hp (hr w (by simp)) hc])

/-- C7 (amended): writing symbol `s` at position `p` and then reading `p`
returns `s` whenever the write succeeds, for any `i64` position; and on a tape
built from the empty tape by a history of writes at positions in the
overflow-free range `|·| < 2^61`, reading any never-written position `p` with
`|p| < 2^61` returns `0` (even when its mapped index lies beyond the backing
array). -/
theorem write_read_spec :
    (∀ (t : Tape) (n : Int) (s : Nat) (t' : Tape), t.write n s = some t' →
      t'.symbol_at_n n = s) ∧
    (∀ (ws : List (Int × Nat)) (t : Tape) (p : Int),
      writeList ⟨[]⟩ ws = some t → (∀ w ∈ ws, posInRange w.1) → posInRange p →
      p ∉ ws.map Prod.fst → t.symbol_at_n p = 0) := by
  constructor
  · intro t n s t' hw
    rw [symbol_at_n_eq_getD, (write_some_getD hw).2, if_pos rfl]
  · intro ws t p hw hr hp hmem
    refine writeList_read_zero ws ⟨[]⟩ t p hw hr hp hmem ?_
    simp [Tape.symbol_at_n]

/-- C7 (counterexample): position `2^62` was never written on the tape built
by the single write `(0, 5)`, yet reading it returns `5`, not `0` — with
wrapping `i64` arithmetic `i64_to_idx (2^62)` collapses to index `0`. -/
theorem write_read_cex :
    writeList ⟨[]⟩ [((0 : Int), 5)] = some ⟨[5]⟩ ∧
    (2 ^ 62 : Int) ∉ [((0 : Int), 5)].map Prod.fst ∧
    Tape.symbol_at_n ⟨[5]⟩ (2 ^ 62) = 5 ∧ (5 : Nat) ≠ 0 := by
  refine ⟨by decide, by decide, by decide, by decide⟩

/-- Witness for `write_read_spec` at the write `(3, 7)` and at the
never-written position `1` after the history `[(0, 5)]`. -/
theorem write_read_spec_witness :
    Tape.write ⟨[]⟩ 3 7 = some ⟨[0, 0, 0, 0, 0, 0, 7]⟩ ∧
    Tape.symbol_at_n ⟨[0, 0, 0, 0, 0, 0, 7]⟩ 3 = 7 ∧
    Tape.symbol_at_n ⟨[5]⟩ 1 = 0 := by
  refine ⟨by decide, write_read_spec.1 ⟨[]⟩ 3 7 _ (by decide), ?_⟩
  have h : writeList ⟨[]⟩ [((0 : Int), 5)] = some ⟨[5]⟩ := by decide
  exact write_read_spec.2 [((0 : Int), 5)] ⟨[5]⟩ 1 h (by decide) (by decide) (by decide)

/-- C10 (amended): on the overflow-free range `|·| < 2^61`, a successful write
at `p` leaves the symbol read at any other position `q` unchanged (the
position-to-index map is injective on that range). -/
theorem write_frame (t : Tape) (p q : Int) (s : Nat) (t' : Tape)
    (hp : posInRange p) (hq : posInRange q) (hne : p ≠ q)
    (hw : t.write p s = some t') :
    t'.symbol_at_n q = t.symbol_at_n q := by
  rw [symbol_at_n_eq_getD, symbol_at_n_eq_getD, (write_some_getD hw).2,
    if_neg (fun hc => hne (i64_to_idx_inj hq hp hc).symm)]

/-- C10 (counterexample): outside the overflow-free range the index map
aliases: writing `5` at position `2^62` on the tape `Tape::new([7])` changes
the symbol read at the distinct position `0` from `7` to `5`. -/
theorem write_frame_cex :
    Tape.new [7] = some ⟨[7]⟩ ∧ (2 ^ 62 : Int) ≠ 0 ∧
    Tape.write ⟨[7]⟩ (2 ^ 62) 5 = some ⟨[5]⟩ ∧
    Tape.symbol_at_n ⟨[7]⟩ 0 = 7 ∧ Tape.symbol_at_n ⟨[5]⟩ 0 = 5 := by
  refine ⟨by decide, by decide, by decide, by decide, by decide⟩

/-- Witness for `write_frame`: writing `5` at `0` on the empty tape leaves
position `1` reading `0`. -/
theorem write_frame_witness :
    Tape.symbol_at_n ⟨[5]⟩ 1 = Tape.symbol_at_n ⟨[]⟩ 1 :=
  write_frame ⟨[]⟩ 0 1 5 ⟨[5]⟩ (by decide) (by decide) (by decide) (by decide)

theorem i64_to_idx_lt (n : Int) : i64_to_idx n < 2 ^ 64 := by
  unfold i64_to_idx usize_of_i64
  omega

theorem usize_tdiv_ne_max {w : Int} (hw1 : -(2 ^ 63) ≤ w) (hw2 : w < 2 ^ 63)
    (h2 : w ≠ -2) (h3 : w ≠ -3) : (Int.tdiv w 2 % 2 ^ 64).toNat ≠ 2 ^ 64 - 1 := by
  rcases le_or_lt 0 w with h | h
  · rw [tdiv_two_nonneg h]
    omega
  · rw [tdiv_two_neg h]
    omega

theorem i64_to_idx_ne_max {n : Int} (h1 : -(2 ^ 63) ≤ n) (h2 : n < 2 ^ 63)
    (hA : n ≠ -(2 ^ 62)) (hB : n ≠ -(2 ^ 63)) : i64_to_idx n ≠ 2 ^ 64 - 1 := by
  unfold i64_to_idx usize_of_i64
  apply usize_tdiv_ne_max (wrap64_lb _) (wrap64_ub _)
  · unfold i64abs i64signum
    rcases lt_trichotomy n 0 with h | h | h
    · rw [if_pos h, if_neg (by omega), if_pos h]
      unfold wrap64
      omega
    · rw [h]; decide
    · rw [if_neg (by omega), if_pos h]
      unfold wrap64
      omega
  · unfold i64abs i64signum
    rcases lt_trichotomy n 0 with h | h | h
    · rw [if_pos h, if_neg (by omega), if_pos h]
      unfold wrap64
      omega
    · rw [h]; decide
    · rw [if_neg (by omega), if_pos h]
      unfold wrap64
      omega

/-- C8 (amended): `symbol_at_n` never fails for any position (its indexing is
guarded, so the checked read always yields a value); `write` never fails for
any `i64` position except `-2^62` and `-2^63`, where the wrapped index
computation yields `usize::MAX`, the resize length `usize::MAX + 1` wraps to
`0` and the subsequent index assignment panics. -/
theorem read_write_total :
    (∀ (t : Tape) (n : Int), t.symbol_at_n_checked n = some (t.symbol_at_n n)) ∧
    (∀ (t : Tape) (n : Int) (s : Nat), -(2 ^ 63) ≤ n → n < 2 ^ 63 →
      n ≠ -(2 ^ 62) → n ≠ -(2 ^ 63) → (t.write n s).isSome) := by
  constructor
  · intro t n
    unfold Tape.symbol_at_n_checked Tape.symbol_at_n
    simp only
    split
    · rfl
    · rename_i h
      push_neg at h
      rw [List.get?_eq_getElem?, List.getElem?_eq_getElem h,
        List.getD_eq_getElem?_getD, List.getElem?_eq_getElem h]
      rfl
  · intro t n s hl hu hA hB
    have hne := i64_to_idx_ne_max hl hu hA hB
    have hlt := i64_to_idx_lt n
    unfold Tape.write
    simp only
    split
    · rename_i h
      rw [if_pos]
      · rfl
      · rw [listResize_length]
        omega
    · rfl

/-- C8 (counterexample): `write` does fail at the extreme positions `-2^62`
and `-2^63` (in a debug build the index arithmetic panics on overflow; in a
release build the index wraps to `usize::MAX`, the resize truncates the
backing array to length `0`, and the index assignment panics). -/
theorem read_write_total_cex :
    Tape.write ⟨[]⟩ (-(2 ^ 62)) 1 = none ∧ Tape.write ⟨[]⟩ (-(2 ^ 63)) 1 = none := by
  refine ⟨by decide, by decide⟩

/-- Witness for `read_write_total`: the write at position `5` succeeds. -/
theorem read_write_total_witness : (Tape.write ⟨[]⟩ 5 9).isSome :=
  read_write_total.2 ⟨[]⟩ 5 9 (by decide) (by decide) (by decide) (by decide)

/-! TransitionFn lemmas. -/

theorem dupScan_false_iff (l : List ((Nat × Nat) × (Nat × Nat × Bool))) :
    ∀ seen : List (Nat × Nat),
    dupScan l seen = false ↔ ((l.map Prod.fst).Nodup ∧ ∀ k ∈ l.map Prod.fst, k ∉ seen) := by
  induction l with
  | nil =>
    intro seen
    simp [dupScan]
  | cons x xs ih =>
    intro seen
    unfold dupScan
    by_cases h : x.1 ∈ seen
    · rw [if_pos (by simpa using h)]
      simp only [List.map_cons, List.nodup_cons, List.mem_cons]
      constructor
      · intro hc
        exact absurd hc (by simp)
      · rintro ⟨_, hall⟩
        exact absurd h (hall x.1 (Or.inl rfl))
    · rw [if_neg (by simpa using h)]
      rw [ih (x.1 :: seen)]
      simp only [List.map_cons, List.nodup_cons, List.mem_cons]
      constructor
      · rintro ⟨hnd, hall⟩
        refine ⟨⟨fun hc => hall x.1 hc (by simp), hnd⟩, ?_⟩
        rintro k (rfl | hk)
        · exact h
        · intro hks
          exact hall k hk (by simp [hks])
      · rintro ⟨⟨hx, hnd⟩, hall⟩
        refine ⟨hnd, fun k hk hks => ?_⟩
        rcases (by simpa using hks : k = x.1 ∨ k ∈ seen) with rfl | hks2
        · exact hx hk
        · exact hall k (Or.inr hk) hks2

theorem lookup_eq_some_of_mem :
    ∀ {l : List ((Nat × Nat) × (Nat × Nat × Bool))} {k : Nat × Nat} {v : Nat × Nat × Bool},
    (l.map Prod.fst).Nodup → (k, v) ∈ l → l.lookup k = some v := by
  intro l
  induction l with
  | nil =>
    intro k v _ hm
    cases hm
  | cons x xs ih =>
    intro k v hnd hm
    obtain ⟨x1, x2⟩ := x
    rw [List.lookup_cons]
    simp only [List.map_cons, List.nodup_cons] at hnd
    rcases List.mem_cons.mp hm with heq | hm2
    · injection heq with h1 h2
      subst h1
      subst h2
      rw [show (k == k) = true by simp]
    · have hne : k ≠ x1 := by
        rintro rfl
        exact hnd.1 (List.mem_map.mpr ⟨(k, v), hm2, rfl⟩)
      have : (k == x1) = false := by simpa using hne
      rw [this]
      exact ih hnd.2 hm2

/-- C5: building a transition function fails (panics on the duplicate-key
scan) exactly when some `(state, symbol)` key repeats; on success, lookup
returns exactly the associated value for every key in the table, and returns
`none` — an absence value, not a failure — for every absent key. -/
theorem transition_fn_spec (state_table : List ((Nat × Nat) × (Nat × Nat × Bool))) :
    (TransitionFn.new state_table = none ↔ ¬ (state_table.map Prod.fst).Nodup) ∧
    (∀ tf, TransitionFn.new state_table = some tf →
      (∀ k v, (k, v) ∈ state_table → tf.run k.1 k.2 = some v) ∧
      (∀ st sy, (st, sy) ∉ state_table.map Prod.fst → tf.run st sy = none)) := by
  constructor
  · unfold TransitionFn.new
    split
    · rename_i h
      simp only [true_iff]
      intro hnd
      rw [show (dupScan state_table [] = true) ↔ ¬ (dupScan state_table [] = false) by simp] at h
      exact h ((dupScan_false_iff state_table []).mpr ⟨hnd, by simp⟩)
    · rename_i h
      have hnd := ((dupScan_false_iff state_table []).mp (by simpa using h)).1
      simp [hnd]
  · intro tf hnew
    unfold TransitionFn.new at hnew
    split at hnew
    · exact absurd hnew (by simp)
    · rename_i h
      injection hnew with hnew
      subst hnew
      have hnd := ((dupScan_false_iff state_table []).mp (by simpa using h)).1
      constructor
      · intro k v hm
        unfold TransitionFn.run
        exact lookup_eq_some_of_mem hnd hm
      · intro st sy hm
        unfold TransitionFn.run
        rw [List.lookup_eq_none_iff]
        intro p hp
        obtain ⟨p1, p2⟩ := p
        simp only [bne_iff_ne, ne_eq]
        rintro rfl
        exact hm (List.mem_map.mpr ⟨((st, sy), p2), hp, rfl⟩)

/-- Witness for `transition_fn_spec` on the two-entry table of the crate's
doc example. -/
theorem transition_fn_spec_witness :
    TransitionFn.run ⟨[((0, 0), (1, 2, true)), ((1, 0), (0, 1, false))]⟩ 0 0 =
      some (1, 2, true) ∧
    TransitionFn.run ⟨[((0, 0), (1, 2, true)), ((1, 0), (0, 1, false))]⟩ 0 1 = none := by
  have h := (transition_fn_spec [((0, 0), (1, 2, true)), ((1, 0), (0, 1, false))]).2
    ⟨[((0, 0), (1, 2, true)), ((1, 0), (0, 1, false))]⟩ (by decide)
  exact ⟨h.1 (0, 0) (1, 2, true) (by decide), h.2 0 1 (by decide)⟩

/-! Machine loop lemmas. -/

theorem run_steps_loop_eq (tf : TransitionFn) (n : Nat) :
    ∀ (maxSteps stepNum : Nat) (c : Cfg), maxSteps - stepNum = n →
    run_steps_loop tf maxSteps stepNum c = runBounded tf n c := by
  induction n with
  | zero =>
    intro maxSteps stepNum c hn
    unfold run_steps_loop
    rw [if_pos (by omega)]
    rfl
  | succ n ih =>
    intro maxSteps stepNum c hn
    unfold run_steps_loop
    rw [if_neg (by omega)]
    cases hstep : machineStep tf c with
    | halt => simp [runBounded, hstep]
    | panicked => simp [runBounded, hstep]
    | stepped out c' =>
      simp only [runBounded, hstep]
      exact ih maxSteps (stepNum + 1) c' (by omega)

theorem runWHS_afterSteps (tf : TransitionFn) (N fuel : Nat) (c : Cfg) :
    run_with_halt_setting tf (.afterSteps N) fuel c = runBounded tf N c := by
  simp only [run_with_halt_setting]
  exact run_steps_loop_eq tf N N 0 c (by omega)

theorem runBounded_out_trace (tf : TransitionFn) :
    ∀ (N : Nat) (c c' : Cfg), runBounded tf N c = .out c' →
    ∃ k, k ≤ N ∧ traceFrom tf c k = some c' := by
  intro N
  induction N with
  | zero =>
    intro c c' h
    refine ⟨0, le_refl 0, ?_⟩
    simp only [runBounded, RunRes.out.injEq] at h
    simp [traceFrom, h]
  | succ n ih =>
    intro c c' h
    unfold runBounded at h
    cases hstep : machineStep tf c with
    | halt =>
      rw [hstep] at h
      simp only [RunRes.out.injEq] at h
      exact ⟨0, by omega, by simp [traceFrom, h]⟩
    | panicked =>
      rw [hstep] at h
      exact absurd h (by simp)
    | stepped out c1 =>
      rw [hstep] at h
      obtain ⟨k, hk, htr⟩ := ih c1 c' h
      exact ⟨k + 1, by omega, by simp [traceFrom, hstep, htr]⟩

/-- C6: step-bounded execution: the counter-based `AfterSteps` loop equals the
bounded-run semantics `runBounded`, which stops before attempting a step once
the bound is reached (`runBounded 0` returns the context unchanged), attempts
one atomic step otherwise; an applied step sets the state and head and writes
the symbol together (head `+1` for `true`, `-1` for `false`, in `i64`
arithmetic); and a bounded run reaching a normal exit applied some `k ≤ N`
transitions. -/
theorem afterSteps_semantics (tf : TransitionFn) (N fuel : Nat) (c : Cfg) :
    run_with_halt_setting tf (.afterSteps N) fuel c = runBounded tf N c ∧
    runBounded tf 0 c = .out c ∧
    (runBounded tf (N + 1) c =
      match machineStep tf c with
      | .halt => .out c
      | .panicked => .panicked
      | .stepped _ c' => runBounded tf N c') ∧
    (∀ out c', machineStep tf c = .stepped out c' →
      c'.state = out.1 ∧
      c'.head_loc = (if out.2.2 then wrap64 (c.head_loc + 1) else wrap64 (c.head_loc - 1)) ∧
      c.tape.write c.head_loc out.2.1 = some c'.tape) ∧
    (∀ c', runBounded tf N c = .out c' → ∃ k, k ≤ N ∧ traceFrom tf c k = some c') := by
  refine ⟨runWHS_afterSteps tf N fuel c, rfl, rfl, ?_, runBounded_out_trace tf N c⟩
  intro out c' hstep
  unfold machineStep at hstep
  rcases hrun : tf.run c.state (c.tape.symbol_at_n c.head_loc) with _ | o
  · rw [hrun] at hstep
    exact absurd hstep (by simp)
  · rw [hrun] at hstep
    simp only at hstep
    rcases hw : c.tape.write c.head_loc o.2.1 with _ | t'
    · rw [hw] at hstep
      exact absurd hstep (by simp)
    · rw [hw] at hstep
      simp only [StepRes.stepped.injEq] at hstep
      obtain ⟨h1, h2⟩ := hstep
      subst h1
      subst h2
      refine ⟨rfl, ?_, hw⟩
      unfold headMove
      cases hb : o.2.2
      · simp only [hb, Bool.false_eq_true, if_false]
        norm_num
        rw [Int.sub_eq_add_neg]
      · simp only [hb, if_true]
        norm_num

/-- Witness for `afterSteps_semantics` on the two-transition machine at
`N = 1` from the blank tape. -/
theorem afterSteps_semantics_witness :
    run_with_halt_setting ⟨[((0, 0), (1, 1, true)), ((1, 0), (0, 1, false))]⟩
      (.afterSteps 1) 0 ⟨0, 0, ⟨[]⟩⟩ =
      runBounded ⟨[((0, 0), (1, 1, true)), ((1, 0), (0, 1, false))]⟩ 1 ⟨0, 0, ⟨[]⟩⟩ ∧
    ∃ k, k ≤ 1 ∧ traceFrom ⟨[((0, 0), (1, 1, true)), ((1, 0), (0, 1, false))]⟩
      ⟨0, 0, ⟨[]⟩⟩ k = some ⟨1, 1, ⟨[1]⟩⟩ := by
  have h := afterSteps_semantics ⟨[((0, 0), (1, 1, true)), ((1, 0), (0, 1, false))]⟩ 1 0
    ⟨0, 0, ⟨[]⟩⟩
  exact ⟨h.1, h.2.2.2.2 ⟨1, 1, ⟨[1]⟩⟩ (by decide)⟩

/-- C3 (amended): with transitions `{(0,0) -> (1,1,right), (1,0) -> (0,1,left)}`
from a blank tape, the step-bounded run with `N = 0` performs zero writes
(the tape is returned untouched); with `N = 1` the canonical tape content is
`[1]`; with `N = 7` the machine halts naturally after two applied steps and
the canonical tape content is `[1, 1]`. -/
theorem halting_example :
    TransitionFn.new [((0, 0), (1, 1, true)), ((1, 0), (0, 1, false))] =
      some ⟨[((0, 0), (1, 1, true)), ((1, 0), (0, 1, false))]⟩ ∧
    run_with_halt_setting ⟨[((0, 0), (1, 1, true)), ((1, 0), (0, 1, false))]⟩
      (.afterSteps 0) 0 ⟨0, 0, ⟨[]⟩⟩ = .out ⟨0, 0, ⟨[]⟩⟩ ∧
    run_with_halt_setting ⟨[((0, 0), (1, 1, true)), ((1, 0), (0, 1, false))]⟩
      (.afterSteps 1) 0 ⟨0, 0, ⟨[]⟩⟩ = .out ⟨1, 1, ⟨[1]⟩⟩ ∧
    Tape.symbols ⟨[1]⟩ = [1] ∧
    run_with_halt_setting ⟨[((0, 0), (1, 1, true)), ((1, 0), (0, 1, false))]⟩
      (.afterSteps 7) 0 ⟨0, 0, ⟨[]⟩⟩ = .out ⟨0, 0, ⟨[1, 0, 1]⟩⟩ ∧
    Tape.symbols ⟨[1, 0, 1]⟩ = [1, 1] ∧
    traceFrom ⟨[((0, 0), (1, 1, true)), ((1, 0), (0, 1, false))]⟩ ⟨0, 0, ⟨[]⟩⟩ 2 =
      some ⟨0, 0, ⟨[1, 0, 1]⟩⟩ := by
  refine ⟨by decide, ?_, ?_, by decide, ?_, by decide, by decide⟩
  · rw [runWHS_afterSteps]
    decide
  · rw [runWHS_afterSteps]
    decide
  · rw [runWHS_afterSteps]
    decide

/-- C3 (counterexample): with the claimed transitions the step-bounded run
with `N = 7` leaves canonical tape content `[1, 1]`, not the claimed
`[1, 2, 3, 1, 2, 3, 1]` (that content is produced by the three-state cycle
machine `{(0,0)->(1,1,R), (1,0)->(2,2,R), (2,0)->(0,3,R)}` of the crate's
test suite). -/
theorem halting_example_cex :
    run_with_halt_setting ⟨[((0, 0), (1, 1, true)), ((1, 0), (0, 1, false))]⟩
      (.afterSteps 7) 0 ⟨0, 0, ⟨[]⟩⟩ = .out ⟨0, 0, ⟨[1, 0, 1]⟩⟩ ∧
    Tape.symbols ⟨[1, 0, 1]⟩ ≠ [1, 2, 3, 1, 2, 3, 1] := by
  refine ⟨?_, by decide⟩
  rw [runWHS_afterSteps]
  decide

/-! Interleaving lemmas: the backing array of `Tape::new` and its trimming. -/

theorem all_interleave : ∀ (a : List Nat), (interleave a).all (· == 0) = a.all (· == 0)
  | [] => rfl
  | [_] => rfl
  | x :: y :: t => by
    show (x :: 0 :: interleave (y :: t)).all (· == 0) = _
    simp only [List.all_cons, all_interleave (y :: t)]
    simp

theorem length_interleave : ∀ (a : List Nat), a ≠ [] → (interleave a).length = 2 * a.length - 1
  | [], h => absurd rfl h
  | [_], _ => rfl
  | x :: y :: t, _ => by
    have ih := length_interleave (y :: t) (by simp)
    show (x :: 0 :: interleave (y :: t)).length = _
    simp only [List.length_cons] at ih ⊢
    omega

theorem interleave_concat : ∀ (l : List Nat) (x : Nat), l ≠ [] →
    interleave (l ++ [x]) = interleave l ++ [0, x]
  | [], x, h => absurd rfl h
  | [a], x, _ => rfl
  | a :: b :: t, x, _ => by
    have ih := interleave_concat (b :: t) x (by simp)
    show interleave (a :: b :: (t ++ [x])) = (a :: 0 :: interleave (b :: t)) ++ [0, x]
    show a :: 0 :: interleave (b :: (t ++ [x])) = (a :: 0 :: interleave (b :: t)) ++ [0, x]
    rw [show b :: (t ++ [x]) = (b :: t) ++ [x] by simp, ih]
    simp

theorem reverse_interleave : ∀ (a : List Nat), (interleave a).reverse = interleave a.reverse
  | [] => rfl
  | [_] => rfl
  | x :: y :: t => by
    have ih := reverse_interleave (y :: t)
    show (x :: 0 :: interleave (y :: t)).reverse = _
    rw [show (x :: 0 :: interleave (y :: t)).reverse =
      (interleave (y :: t)).reverse ++ [0, x] by simp, ih,
      ← interleave_concat ((y :: t).reverse) x (by simp)]
    simp

theorem interleave_take : ∀ (a : List Nat) (k : Nat), k < a.length →
    (interleave a).take (2 * k + 1) = interleave (a.take (k + 1))
  | [], k, h => by simp at h
  | [x], 0, _ => rfl
  | [x], k + 1, h => by simp at h
  | x :: y :: t, 0, _ => rfl
  | x :: y :: t, k + 1, h => by
    have ih := interleave_take (y :: t) k (by simpa using h)
    show (x :: 0 :: interleave (y :: t)).take (2 * (k + 1) + 1) = _
    rw [show 2 * (k + 1) + 1 = (2 * k + 1) + 1 + 1 by ring]
    simp only [List.take_succ_cons]
    rw [ih]
    show x :: 0 :: interleave ((y :: t).take (k + 1)) = interleave (x :: (y :: t).take (k + 1))
    simp only [List.take_succ_cons]
    rfl

theorem interleave_drop : ∀ (j : Nat) (a : List Nat),
    (interleave a).drop (2 * j) = interleave (a.drop j)
  | 0, a => by simp
  | j + 1, [] => by simp [interleave]
  | j + 1, [x] => by
    show (interleave [x]).drop (2 * (j + 1)) = interleave ([x].drop (j + 1))
    simp [interleave]
    omega
  | j + 1, x :: y :: t => by
    have ih := interleave_drop j (y :: t)
    show (x :: 0 :: interleave (y :: t)).drop (2 * (j + 1)) = _
    rw [show 2 * (j + 1) = (2 * j) + 1 + 1 by ring]
    simp only [List.drop_succ_cons]
    rw [ih]

theorem findIdx_interleave : ∀ (a : List Nat), (∃ x ∈ a, x ≠ 0) →
    (interleave a).findIdx (· != 0) = 2 * a.findIdx (· != 0)
  | [], h => by simp at h
  | [x], h => by
    have hx : x ≠ 0 := by simpa using h
    rw [show interleave [x] = [x] from rfl]
    simp [List.findIdx_cons, show (x != 0) = true by simpa using hx]
  | x :: y :: t, h => by
    by_cases hx : x = 0
    · subst hx
      have hex : ∃ z ∈ y :: t, z ≠ 0 := by simpa using h
      have ih := findIdx_interleave (y :: t) hex
      show ((0 : Nat) :: 0 :: interleave (y :: t)).findIdx (· != 0) = _
      simp only [List.findIdx_cons, bne_self_eq_false, cond_false, ih]
      omega
    · show ((x : Nat) :: 0 :: interleave (y :: t)).findIdx (· != 0) = _
      simp [List.findIdx_cons, show (x != 0) = true by simpa using hx]

theorem interleave_inj : ∀ (a b : List Nat), interleave a = interleave b → a = b
  | [], [], _ => rfl
  | [], [x], h => by simp [interleave] at h
  | [], x :: y :: t, h => by simp [interleave] at h
  | [x], [], h => by simp [interleave] at h
  | [x], [y], h => by simpa [interleave] using h
  | [x], y :: z :: t, h => by
    rw [show interleave [x] = [x] from rfl,
      show interleave (y :: z :: t) = y :: 0 :: interleave (z :: t) from rfl] at h
    simp at h
  | x :: y :: t, [], h => by simp [interleave] at h
  | x :: y :: t, [z], h => by
    rw [show interleave [z] = [z] from rfl,
      show interleave (x :: y :: t) = x :: 0 :: interleave (y :: t) from rfl] at h
    simp at h
  | x :: y :: t, z :: w :: u, h => by
    rw [show interleave (x :: y :: t) = x :: 0 :: interleave (y :: t) from rfl,
      show interleave (z :: w :: u) = z :: 0 :: interleave (w :: u) from rfl] at h
    injection h with h1 h2
    injection h2 with _ h3
    rw [h1, interleave_inj (y :: t) (w :: u) h3]

theorem trim_interleave (a : List Nat) :
    no_trailing_or_leading_zeros (interleave a) =
    interleave (no_trailing_or_leading_zeros a) := by
  by_cases hz : a.all (· == 0)
  · unfold no_trailing_or_leading_zeros
    rw [if_pos hz, if_pos (show ((interleave a).all (· == 0)) = true by
      rw [all_interleave]; exact hz)]
    rfl
  · have hz2 : ¬ ((interleave a).all (· == 0)) = true := by rw [all_interleave]; exact hz
    unfold no_trailing_or_leading_zeros
    rw [if_neg hz, if_neg hz2]
    have hex : ∃ x ∈ a, x ≠ 0 := by
      simp only [List.all_eq_true] at hz
      push_neg at hz
      simpa using hz
    have hexr : ∃ x ∈ a.reverse, x ≠ 0 := by simpa using hex
    have ha : a ≠ [] := by
      rintro rfl
      simp at hex
    have hfn : a.findIdx (· != 0) < a.length := by
      rw [List.findIdx_lt_length]
      obtain ⟨x, hx, hne⟩ := hex
      exact ⟨x, hx, by simpa using hne⟩
    have hrn : a.reverse.findIdx (· != 0) < a.length := by
      rw [show a.length = a.reverse.length by simp, List.findIdx_lt_length]
      obtain ⟨x, hx, hne⟩ := hexr
      exact ⟨x, hx, by simpa using hne⟩
    have hL : (interleave a).length = 2 * a.length - 1 := length_interleave a ha
    have hFi : (interleave a).findIdx (· != 0) = 2 * a.findIdx (· != 0) :=
      findIdx_interleave a hex
    have hRi : (interleave a).reverse.findIdx (· != 0) = 2 * a.reverse.findIdx (· != 0) := by
      rw [reverse_interleave]
      exact findIdx_interleave a.reverse hexr
    rw [hL, hFi, hRi,
      show 2 * a.length - 1 - 1 - 2 * a.reverse.findIdx (· != 0) + 1 =
        2 * (a.length - 1 - a.reverse.findIdx (· != 0)) + 1 by omega,
      interleave_take a (a.length - 1 - a.reverse.findIdx (· != 0)) (by omega),
      interleave_drop (a.findIdx (· != 0))]

theorem write_at_next (pre : List Nat) (x : Nat) (h : pre.length < 2 ^ 61) :
    Tape.write ⟨interleave pre⟩ (i64_of_usize pre.length) x =
    some ⟨interleave (pre ++ [x])⟩ := by
  rw [show i64_of_usize pre.length = (pre.length : Int) from
    wrap64_eq_self (by omega) (by omega)]
  have hidx : i64_to_idx (pre.length : Int) = 2 * pre.length := by
    rw [i64_to_idx_of_nonneg (by omega) (by omega)]
    omega
  unfold Tape.write
  simp only [hidx]
  rcases eq_or_ne pre [] with rfl | hne
  · show (if 0 ≥ (interleave []).length then _ else _) = _
    rw [if_pos (by decide)]
    rw [show ((2 * ([] : List Nat).length + 1) % 2 ^ 64) = 1 by decide]
    rw [show listResize (interleave []) 1 = [0] from rfl]
    rw [if_pos (by decide)]
    rfl
  · have hlen : (interleave pre).length = 2 * pre.length - 1 := length_interleave pre hne
    have hs1 : 1 ≤ pre.length := List.length_pos.mpr hne
    rw [if_pos (by omega)]
    rw [show (2 * pre.length + 1) % 2 ^ 64 = 2 * pre.length + 1 by omega]
    have hres : listResize (interleave pre) (2 * pre.length + 1) =
        interleave pre ++ [0, 0] := by
      unfold listResize
      rw [if_neg (by omega), show 2 * pre.length + 1 - (interleave pre).length = 2 by omega]
      rfl
    rw [hres]
    rw [if_pos (by simp only [List.length_append, List.length_cons, List.length_nil]; omega)]
    have hset : (interleave pre ++ [0, 0]).set (2 * pre.length) x =
        interleave pre ++ [0, x] := by
      have h2 : ¬ (2 * pre.length < (interleave pre).length) := by omega
      rw [List.set_append, if_neg h2,
        show 2 * pre.length - (interleave pre).length = 1 by omega]
      rfl
    rw [hset, ← interleave_concat pre x hne]

theorem newLoop_interleave : ∀ (xs pre : List Nat), pre.length + xs.length ≤ 2 ^ 61 →
    Tape.newLoop xs pre.length ⟨interleave pre⟩ = some ⟨interleave (pre ++ xs)⟩
  | [], pre, _ => by simp [Tape.newLoop]
  | x :: xs, pre, h => by
    unfold Tape.newLoop
    rw [write_at_next pre x (by simp only [List.length_cons] at h; omega)]
    have ih := newLoop_interleave xs (pre ++ [x])
      (by simp only [List.length_append, List.length_cons, List.length_nil] at h ⊢; omega)
    rw [show (pre ++ [x]).length = pre.length + 1 by simp] at ih
    simp only
    rw [ih, show pre ++ x :: xs = (pre ++ [x]) ++ xs by simp]

theorem new_interleave (a : List Nat) (h : a.length < 2 ^ 61) :
    Tape.new a = some ⟨interleave a⟩ := by
  have h0 := newLoop_interleave a [] (by simpa using le_of_lt h)
  simpa [Tape.new] using h0

/-- C1 (amended): `Tape`'s `PartialEq` compares the raw (interleaved) backing
arrays trimmed of leading/trailing zeros — not the position-ordered canonical
symbol sequences; nevertheless, for any two finite input sequences `a`, `b`,
`Tape::new(a) == Tape::new(b)` holds exactly when `a` and `b` differ only by
leading/trailing zeros. -/
theorem tape_equality_spec (a b : List Nat) (ha : a.length < 2 ^ 61)
    (hb : b.length < 2 ^ 61) :
    ∃ ta tb, Tape.new a = some ta ∧ Tape.new b = some tb ∧
      (Tape.beq ta tb = true ↔
        no_trailing_or_leading_zeros a = no_trailing_or_leading_zeros b) := by
  refine ⟨⟨interleave a⟩, ⟨interleave b⟩, new_interleave a ha, new_interleave b hb, ?_⟩
  unfold Tape.beq
  simp only [beq_iff_eq]
  rw [trim_interleave, trim_interleave]
  exact ⟨fun h => interleave_inj _ _ h, fun h => by rw [h]⟩

/-- C1 (counterexample): two reachable tapes that compare equal under
`PartialEq` but have different canonical position-ordered contents: backing
`[1, 2]` holds `1` at position `0` and `2` at position `-1`; backing
`[0, 1, 2]` holds `1` at position `-1` and `2` at position `1`; both trim to
`[1, 2]` raw, yet their canonical contents are `[2, 1]` and `[1, 0, 2]`.  So
`PartialEq` is not canonical-content equality. -/
theorem tape_equality_cex :
    writeList ⟨[]⟩ [((0 : Int), 1), (-1, 2)] = some ⟨[1, 2]⟩ ∧
    writeList ⟨[]⟩ [((-1 : Int), 1), (1, 2)] = some ⟨[0, 1, 2]⟩ ∧
    Tape.beq ⟨[1, 2]⟩ ⟨[0, 1, 2]⟩ = true ∧
    Tape.symbols ⟨[1, 2]⟩ = [2, 1] ∧
    Tape.symbols ⟨[0, 1, 2]⟩ = [1, 0, 2] ∧
    Tape.symbols ⟨[1, 2]⟩ ≠ Tape.symbols ⟨[0, 1, 2]⟩ := by
  refine ⟨by decide, by decide, by decide, by decide, by decide, by decide⟩

/-- Witness for `tape_equality_spec` on the crate's doc example
`[23, 1, 0, 49]` vs `[23, 1, 0, 49, 0]`. -/
theorem tape_equality_spec_witness :
    ∃ ta tb, Tape.new [23, 1, 0, 49] = some ta ∧ Tape.new [23, 1, 0, 49, 0] = some tb ∧
      Tape.beq ta tb = true := by
  obtain ⟨ta, tb, h1, h2, hiff⟩ := tape_equality_spec [23, 1, 0, 49] [23, 1, 0, 49, 0]
    (by decide) (by decide)
  exact ⟨ta, tb, h1, h2, hiff.mpr (by decide)⟩

/-! Capacity-hint constructor lemmas. -/

theorem newLoopCap_some : ∀ (xs : List Nat) (s : Nat) (t : Tape) (cap : Nat)
    (t' : Tape) (cap' : Nat), Tape.newLoopCap xs s t cap = some (t', cap') →
    cap ≤ cap' ∧ Tape.newLoop xs s t = some t'
  | [], s, t, cap, t', cap', h => by
    simp only [Tape.newLoopCap, Option.some.injEq, Prod.mk.injEq] at h
    simp [Tape.newLoop, h.1, h.2]
  | x :: xs, s, t, cap, t', cap', h => by
    unfold Tape.newLoopCap at h
    unfold Tape.newLoop
    rcases hw : t.write (i64_of_usize s) x with _ | t1
    · rw [hw] at h
      exact absurd h (by simp)
    · rw [hw] at h
      simp only at h ⊢
      have ih := newLoopCap_some xs (s + 1) t1 (max cap t1.raw_symbols.length) t' cap' h
      exact ⟨le_trans (le_max_left _ _) ih.1, ih.2⟩

theorem newLoopCap_isSome : ∀ (xs : List Nat) (s : Nat) (t : Tape) (cap : Nat),
    (Tape.newLoopCap xs s t cap).isSome = (Tape.newLoop xs s t).isSome
  | [], _, _, _ => rfl
  | x :: xs, s, t, cap => by
    unfold Tape.newLoopCap Tape.newLoop
    rcases hw : t.write (i64_of_usize s) x with _ | t1
    · rfl
    · exact newLoopCap_isSome xs (s + 1) t1 (max cap t1.raw_symbols.length)

/-- C9 (amended): for a nonempty input (in the overflow-free length range),
`with_capacity(input, capacity)` fails exactly when
`capacity < 2 * len(input) - 1`; for an empty input the `usize` computation
`0 * 2 - 1` wraps, so it fails exactly when `capacity < 2^64 - 1` (and thus
for every realistic capacity).  On success the backing store's capacity is at
least the request and the tape equals `Tape::new(input)`. -/
theorem with_capacity_spec (input : List Nat) (capacity : Nat)
    (hlen : input.length < 2 ^ 61) :
    (input ≠ [] →
      (Tape.with_capacity input capacity = none ↔ capacity < 2 * input.length - 1)) ∧
    (input = [] →
      (Tape.with_capacity input capacity = none ↔ capacity < 2 ^ 64 - 1)) ∧
    (∀ t cap, Tape.with_capacity input capacity = some (t, cap) →
      capacity ≤ cap ∧ Tape.new input = some t) := by
  have hthr : (input.length * 2 + (2 ^ 64 - 1)) % 2 ^ 64 =
      if input.length = 0 then 2 ^ 64 - 1 else 2 * input.length - 1 := by
    split <;> omega
  have hsome : (Tape.newLoopCap input 0 (⟨[]⟩ : Tape) capacity).isSome = true := by
    rw [newLoopCap_isSome]
    rw [show Tape.newLoop input 0 (⟨[]⟩ : Tape) = Tape.new input from rfl,
      new_interleave input hlen]
    rfl
  refine ⟨?_, ?_, ?_⟩
  · intro hne
    unfold Tape.with_capacity
    rw [hthr, if_neg (fun hc => hne (List.eq_nil_of_length_eq_zero hc))]
    constructor
    · intro h
      by_contra hc
      rw [if_neg hc] at h
      rw [h] at hsome
      exact absurd hsome (by simp)
    · intro h
      rw [if_pos h]
  · rintro rfl
    unfold Tape.with_capacity
    rw [hthr, if_pos (show ([] : List Nat).length = 0 from rfl)]
    constructor
    · intro h
      by_contra hc
      rw [if_neg hc] at h
      rw [h] at hsome
      exact absurd hsome (by simp)
    · intro h
      rw [if_pos h]
  · intro t cap h
    unfold Tape.with_capacity at h
    split at h
    · exact absurd h (by simp)
    · have h2 := newLoopCap_some input 0 ⟨[]⟩ capacity t cap h
      exact ⟨h2.1, h2.2⟩

/-- C9 (counterexample): for the empty input, `with_capacity` fails at
capacity `10` even though `10 < 2 * 0 - 1` is false as stated (with the
subtraction read over the integers): the `usize` expression `0 * 2 - 1` wraps
to `2^64 - 1` (and panics on underflow in a debug build). -/
theorem with_capacity_cex :
    Tape.with_capacity [] 10 = none ∧ ¬ ((10 : Int) < 2 * 0 - 1) := by
  refine ⟨by decide, by decide⟩

/-- Witness for `with_capacity_spec` on the crate's doc example: input
`[23, 1, 0, 49]` with capacity `20`. -/
theorem with_capacity_spec_witness :
    20 ≤ 20 ∧ Tape.new [23, 1, 0, 49] = some ⟨[23, 0, 1, 0, 0, 0, 49]⟩ :=
  (with_capacity_spec [23, 1, 0, 49] 20 (by decide)).2.2 ⟨[23, 0, 1, 0, 0, 0, 49]⟩ 20
    (by decide)

/-! Recording-run lemmas. -/

theorem replayStep_of_machineStep {tf : TransitionFn} {c : Cfg} {out : Nat × Nat × Bool}
    {c1 : Cfg} (h : machineStep tf c = .stepped out c1) : replayStep c out = some c1 := by
  unfold machineStep at h
  rcases hrun : tf.run c.state (c.tape.symbol_at_n c.head_loc) with _ | o
  · rw [hrun] at h
    exact absurd h (by simp)
  · rw [hrun] at h
    simp only at h
    rcases hw : c.tape.write c.head_loc o.2.1 with _ | t'
    · rw [hw] at h
      exact absurd h (by simp)
    · rw [hw] at h
      simp only [StepRes.stepped.injEq] at h
      obtain ⟨h1, h2⟩ := h
      subst h1
      subst h2
      unfold replayStep
      rw [hw]

theorem runBoundedRec_fst (tf : TransitionFn) :
    ∀ (n : Nat) (c : Cfg), (runBoundedRec tf n c).1 = runBounded tf n c
  | 0, c => rfl
  | n + 1, c => by
    unfold runBoundedRec runBounded
    cases hstep : machineStep tf c with
    | halt => rfl
    | panicked => rfl
    | stepped out c1 =>
      dsimp only
      have ih := runBoundedRec_fst tf n c1
      rcases hrec : runBoundedRec tf n c1 with ⟨r, L⟩
      rw [hrec] at ih
      exact ih

theorem runLoopRec_fst (tf : TransitionFn) :
    ∀ (fuel : Nat) (c : Cfg), (runLoopRec tf fuel c).1 = runLoop tf fuel c
  | 0, c => rfl
  | fuel + 1, c => by
    unfold runLoopRec runLoop
    cases hstep : machineStep tf c with
    | halt => rfl
    | panicked => rfl
    | stepped out c1 =>
      dsimp only
      have ih := runLoopRec_fst tf fuel c1
      rcases hrec : runLoopRec tf fuel c1 with ⟨r, L⟩
      rw [hrec] at ih
      exact ih

theorem run_duration_loop_rec_fst (tf : TransitionFn) (elapsed : Nat → Bool) :
    ∀ (fuel i : Nat) (c : Cfg),
    (run_duration_loop_rec tf elapsed fuel i c).1 = run_duration_loop tf elapsed fuel i c
  | 0, _, _ => rfl
  | fuel + 1, i, c => by
    unfold run_duration_loop_rec run_duration_loop
    by_cases he : elapsed i
    · rw [if_pos he, if_pos he]
    · rw [if_neg he, if_neg he]
      cases hstep : machineStep tf c with
      | halt => rfl
      | panicked => rfl
      | stepped out c1 =>
        dsimp only
        have ih := run_duration_loop_rec_fst tf elapsed fuel (i + 1) c1
        rcases hrec : run_duration_loop_rec tf elapsed fuel (i + 1) c1 with ⟨r, L⟩
        rw [hrec] at ih
        exact ih

theorem run_steps_loop_rec_eq (tf : TransitionFn) (n : Nat) :
    ∀ (maxSteps stepNum : Nat) (c : Cfg), maxSteps - stepNum = n →
    run_steps_loop_rec tf maxSteps stepNum c = runBoundedRec tf n c := by
  induction n with
  | zero =>
    intro maxSteps stepNum c hn
    unfold run_steps_loop_rec
    rw [if_pos (by omega)]
    rfl
  | succ n ih =>
    intro maxSteps stepNum c hn
    unfold run_steps_loop_rec runBoundedRec
    rw [if_neg (by omega)]
    cases hstep : machineStep tf c with
    | halt => rfl
    | panicked => rfl
    | stepped out c1 =>
      dsimp only
      rw [ih maxSteps (stepNum + 1) c1 (by omega)]

theorem traceFrom_succ {tf : TransitionFn} {c : Cfg} {out : Nat × Nat × Bool} {c1 : Cfg}
    (hstep : machineStep tf c = .stepped out c1) (k : Nat) :
    traceFrom tf c (k + 1) = traceFrom tf c1 k := by
  conv_lhs => unfold traceFrom
  rw [hstep]

theorem runBoundedRec_replay (tf : TransitionFn) :
    ∀ (n : Nat) (c c' : Cfg) (L : List (Nat × Nat × Bool)),
    runBoundedRec tf n c = (.out c', L) →
    (∀ j, j ≤ L.length → replayList c (L.take j) = traceFrom tf c j) ∧
    traceFrom tf c L.length = some c' := by
  intro n
  induction n with
  | zero =>
    intro c c' L h
    simp only [runBoundedRec, Prod.mk.injEq, RunRes.out.injEq] at h
    obtain ⟨h1, h2⟩ := h
    subst h2
    refine ⟨fun j hj => ?_, by simp [traceFrom, h1]⟩
    rw [Nat.le_zero.mp hj]
    rfl
  | succ n ih =>
    intro c c' L h
    unfold runBoundedRec at h
    cases hstep : machineStep tf c with
    | halt =>
      rw [hstep] at h
      simp only [Prod.mk.injEq, RunRes.out.injEq] at h
      obtain ⟨h1, h2⟩ := h
      subst h2
      refine ⟨fun j hj => ?_, by simp [traceFrom, h1]⟩
      rw [Nat.le_zero.mp hj]
      rfl
    | panicked =>
      rw [hstep] at h
      simp only [Prod.mk.injEq] at h
      exact absurd h.1 (by simp)
    | stepped out c1 =>
      rw [hstep] at h
      dsimp only at h
      rcases hrec : runBoundedRec tf n c1 with ⟨r, L1⟩
      rw [hrec] at h
      dsimp only at h
      simp only [Prod.mk.injEq] at h
      obtain ⟨h1, h2⟩ := h
      subst h2
      obtain ⟨hrep, htr⟩ := ih c1 c' L1 (by rw [hrec, h1])
      constructor
      · intro j hj
        cases j with
        | zero => rfl
        | succ j' =>
          rw [List.take_succ_cons, traceFrom_succ hstep]
          show (match replayStep c out with
            | none => none
            | some c2 => replayList c2 (L1.take j')) = traceFrom tf c1 j'
          rw [replayStep_of_machineStep hstep]
          exact hrep j' (by simpa using hj)
      · rw [show (out :: L1).length = L1.length + 1 from rfl, traceFrom_succ hstep]
        exact htr

theorem runLoopRec_replay (tf : TransitionFn) :
    ∀ (fuel : Nat) (c c' : Cfg) (L : List (Nat × Nat × Bool)),
    runLoopRec tf fuel c = (.out c', L) →
    (∀ j, j ≤ L.length → replayList c (L.take j) = traceFrom tf c j) ∧
    traceFrom tf c L.length = some c' := by
  intro fuel
  induction fuel with
  | zero =>
    intro c c' L h
    simp only [runLoopRec, Prod.mk.injEq] at h
    exact absurd h.1 (by simp)
  | succ n ih =>
    intro c c' L h
    unfold runLoopRec at h
    cases hstep : machineStep tf c with
    | halt =>
      rw [hstep] at h
      simp only [Prod.mk.injEq, RunRes.out.injEq] at h
      obtain ⟨h1, h2⟩ := h
      subst h2
      refine ⟨fun j hj => ?_, by simp [traceFrom, h1]⟩
      rw [Nat.le_zero.mp hj]
      rfl
    | panicked =>
      rw [hstep] at h
      simp only [Prod.mk.injEq] at h
      exact absurd h.1 (by simp)
    | stepped out c1 =>
      rw [hstep] at h
      dsimp only at h
      rcases hrec : runLoopRec tf n c1 with ⟨r, L1⟩
      rw [hrec] at h
      dsimp only at h
      simp only [Prod.mk.injEq] at h
      obtain ⟨h1, h2⟩ := h
      subst h2
      obtain ⟨hrep, htr⟩ := ih c1 c' L1 (by rw [hrec, h1])
      constructor
      · intro j hj
        cases j with
        | zero => rfl
        | succ j' =>
          rw [List.take_succ_cons, traceFrom_succ hstep]
          show (match replayStep c out with
            | none => none
            | some c2 => replayList c2 (L1.take j')) = traceFrom tf c1 j'
          rw [replayStep_of_machineStep hstep]
          exact hrep j' (by simpa using hj)
      · rw [show (out :: L1).length = L1.length + 1 from rfl, traceFrom_succ hstep]
        exact htr

theorem run_duration_loop_rec_replay (tf : TransitionFn) (elapsed : Nat → Bool) :
    ∀ (fuel i : Nat) (c c' : Cfg) (L : List (Nat × Nat × Bool)),
    run_duration_loop_rec tf elapsed fuel i c = (.out c', L) →
    (∀ j, j ≤ L.length → replayList c (L.take j) = traceFrom tf c j) ∧
    traceFrom tf c L.length = some c' := by
  intro fuel
  induction fuel with
  | zero =>
    intro i c c' L h
    simp only [run_duration_loop_rec, Prod.mk.injEq] at h
    exact absurd h.1 (by simp)
  | succ n ih =>
    intro i c c' L h
    unfold run_duration_loop_rec at h
    by_cases he : elapsed i
    · rw [if_pos he] at h
      simp only [Prod.mk.injEq, RunRes.out.injEq] at h
      obtain ⟨h1, h2⟩ := h
      subst h2
      refine ⟨fun j hj => ?_, by simp [traceFrom, h1]⟩
      rw [Nat.le_zero.mp hj]
      rfl
    · rw [if_neg he] at h
      cases hstep : machineStep tf c with
      | halt =>
        rw [hstep] at h
        simp only [Prod.mk.injEq, RunRes.out.injEq] at h
        obtain ⟨h1, h2⟩ := h
        subst h2
        refine ⟨fun j hj => ?_, by simp [traceFrom, h1]⟩
        rw [Nat.le_zero.mp hj]
        rfl
      | panicked =>
        rw [hstep] at h
        simp only [Prod.mk.injEq] at h
        exact absurd h.1 (by simp)
      | stepped out c1 =>
        rw [hstep] at h
        dsimp only at h
        rcases hrec : run_duration_loop_rec tf elapsed n (i + 1) c1 with ⟨r, L1⟩
        rw [hrec] at h
        dsimp only at h
        simp only [Prod.mk.injEq] at h
        obtain ⟨h1, h2⟩ := h
        subst h2
        obtain ⟨hrep, htr⟩ := ih (i + 1) c1 c' L1 (by rw [hrec, h1])
        constructor
        · intro j hj
          cases j with
          | zero => rfl
          | succ j' =>
            rw [List.take_succ_cons, traceFrom_succ hstep]
            show (match replayStep c out with
              | none => none
              | some c2 => replayList c2 (L1.take j')) = traceFrom tf c1 j'
            rw [replayStep_of_machineStep hstep]
            exact hrep j' (by simpa using hj)
        · rw [show (out :: L1).length = L1.length + 1 from rfl, traceFrom_succ hstep]
          exact htr

theorem packRec_toRunRes (init : Cfg) (p : RunRes × List (Nat × Nat × Bool)) :
    (packRec init p).toRunRes = p.1 := by
  rcases p with ⟨r, L⟩
  cases r <;> rfl

theorem record_pack_spec (tf : TransitionFn) (c : Cfg)
    (p : RunRes × List (Nat × Nat × Bool))
    (hrepl : ∀ c' L, p = (.out c', L) →
      (∀ j, j ≤ L.length → replayList c (L.take j) = traceFrom tf c j) ∧
      traceFrom tf c L.length = some c') :
    ∀ c' rec, packRec c p = .out c' rec →
      rec.input = c.tape ∧ rec.init_state = c.state ∧ rec.init_head_loc = c.head_loc ∧
      (∀ j, j ≤ rec.steps.length →
        replayList ⟨rec.init_state, rec.init_head_loc, rec.input⟩ (rec.steps.take j) =
          traceFrom tf c j) ∧
      rec.replay = some c' ∧ p.1 = .out c' := by
  intro c' rec h
  rcases p with ⟨r, L⟩
  cases r with
  | out c2 =>
    simp only [packRec, RecRunRes.out.injEq] at h
    obtain ⟨h1, h2⟩ := h
    subst h1
    subst h2
    obtain ⟨hrep, htr⟩ := hrepl _ L rfl
    refine ⟨rfl, rfl, rfl, fun j hj => hrep j hj, ?_, rfl⟩
    unfold Recording.replay
    have hfull := hrep L.length le_rfl
    rw [List.take_length] at hfull
    exact hfull.trans htr
  | panicked => simp [packRec] at h
  | fuelOut => simp [packRec] at h

/-- C4: the run/record equivalence.  For every transition function, halting
policy (`NoForcedHalt` and `AfterDuration` through the fuel/clock
abstractions) and initial context: the recording run's plain outcome equals
`run_with_halt_setting`'s outcome (recording never changes observable
execution); and whenever the recording run exits normally, the `Recording`
snapshots the initial tape/state/head, replaying its first `j` entries (write
at the current head, then move) reproduces the context after `j` applied
steps of the original run for every `j`, and replaying all entries yields the
final context — whose tape is the tape `run_with_halt_setting` produces. -/
theorem run_record_equiv (tf : TransitionFn) (hs : HaltSetting) (fuel : Nat) (c : Cfg) :
    (run_with_halt_setting_and_record tf hs fuel c).toRunRes =
      run_with_halt_setting tf hs fuel c ∧
    (∀ c' rec, run_with_halt_setting_and_record tf hs fuel c = .out c' rec →
      rec.input = c.tape ∧ rec.init_state = c.state ∧ rec.init_head_loc = c.head_loc ∧
      (∀ j, j ≤ rec.steps.length →
        replayList ⟨rec.init_state, rec.init_head_loc, rec.input⟩ (rec.steps.take j) =
          traceFrom tf c j) ∧
      rec.replay = some c' ∧
      run_with_halt_setting tf hs fuel c = .out c') := by
  cases hs with
  | noForcedHalt =>
    have hfst : (runLoopRec tf fuel c).1 = runLoop tf fuel c := runLoopRec_fst tf fuel c
    constructor
    · show (packRec c (runLoopRec tf fuel c)).toRunRes = runLoop tf fuel c
      rw [packRec_toRunRes, hfst]
    · intro c' rec h
      have hmain := record_pack_spec tf c (runLoopRec tf fuel c)
        (fun c'2 L hL => runLoopRec_replay tf fuel c c'2 L hL) c' rec h
      refine ⟨hmain.1, hmain.2.1, hmain.2.2.1, hmain.2.2.2.1, hmain.2.2.2.2.1, ?_⟩
      show runLoop tf fuel c = .out c'
      rw [← hfst, hmain.2.2.2.2.2]
  | afterSteps N =>
    have heq : run_steps_loop_rec tf N 0 c = runBoundedRec tf N c :=
      run_steps_loop_rec_eq tf N N 0 c (by omega)
    constructor
    · show (packRec c (run_steps_loop_rec tf N 0 c)).toRunRes =
        run_with_halt_setting tf (.afterSteps N) fuel c
      rw [heq, packRec_toRunRes, runBoundedRec_fst, runWHS_afterSteps]
    · intro c' rec h
      replace h : packRec c (runBoundedRec tf N c) = .out c' rec := by
        rw [← heq]
        exact h
      have hmain := record_pack_spec tf c (runBoundedRec tf N c)
        (fun c'2 L hL => runBoundedRec_replay tf N c c'2 L hL) c' rec h
      refine ⟨hmain.1, hmain.2.1, hmain.2.2.1, hmain.2.2.2.1, hmain.2.2.2.2.1, ?_⟩
      rw [runWHS_afterSteps, ← runBoundedRec_fst tf N c, hmain.2.2.2.2.2]
  | afterDuration elapsed =>
    have hfst : (run_duration_loop_rec tf elapsed fuel 0 c).1 =
        run_duration_loop tf elapsed fuel 0 c := run_duration_loop_rec_fst tf elapsed fuel 0 c
    constructor
    · show (packRec c (run_duration_loop_rec tf elapsed fuel 0 c)).toRunRes =
        run_duration_loop tf elapsed fuel 0 c
      rw [packRec_toRunRes, hfst]
    · intro c' rec h
      have hmain := record_pack_spec tf c (run_duration_loop_rec tf elapsed fuel 0 c)
        (fun c'2 L hL => run_duration_loop_rec_replay tf elapsed fuel 0 c c'2 L hL) c' rec h
      refine ⟨hmain.1, hmain.2.1, hmain.2.2.1, hmain.2.2.2.1, hmain.2.2.2.2.1, ?_⟩
      show run_duration_loop tf elapsed fuel 0 c = .out c'
      rw [← hfst, hmain.2.2.2.2.2]

/-- Witness for `run_record_equiv`: the two-transition machine run unbounded
(fuel 5) from the blank tape records two steps whose replay reproduces the
final context. -/
theorem run_record_equiv_witness :
    Recording.replay ⟨⟨[]⟩, 0, 0, [(1, 1, true), (0, 1, false)]⟩ =
      some ⟨0, 0, ⟨[1, 0, 1]⟩⟩ := by
  have h := (run_record_equiv ⟨[((0, 0), (1, 1, true)), ((1, 0), (0, 1, false))]⟩
    .noForcedHalt 5 ⟨0, 0, ⟨[]⟩⟩).2 ⟨0, 0, ⟨[1, 0, 1]⟩⟩
    ⟨⟨[]⟩, 0, 0, [(1, 1, true), (0, 1, false)]⟩ (by decide)
  exact h.2.2.2.2.1
